import Mathlib

/-!
# Verification of the `ApiKeyManager` credential rotator

Shallow embedding of `packages/core/src/core/contentGenerator.ts`
(the `ApiKeyManager` class and its module-level singleton helpers) in Lean 4,
together with proofs of the specified properties.

Modelling conventions:
* JS strings are sequences of code units; all inputs of interest here are
  ASCII, so we model the string-manipulating parts of the code
  (`split(';')`, `trim()`, `substring`, `'*'.repeat`) as structurally
  recursive functions on `List Char` and wrap them back into `String`.
* Mutation of the `apiKeys` array entries (JS objects aliased between
  `activeKeys` and `this.apiKeys`) is made explicit: a JS
  `find(...)` followed by in-place mutation of the found object becomes
  `updateFirst`, which rewrites the first list entry satisfying the
  predicate and leaves everything else untouched.
* `new Date()` timestamps are abstract `Nat` values supplied by the caller;
  `Math.floor(Math.random() * n)` is an externally supplied draw reduced
  into `[0, n)`.
* JS `throw` is modelled with `Except`: an operation that throws returns
  `.error` and (as in the source, where every throw happens before any
  mutation) leaves the state unchanged.
-/

namespace GeminiCli

/-- Embeds the `ApiKeyInfo` interface: one managed credential with health
metadata.  `lastUsed` is an abstract timestamp, `lastError` the last reported
error message. -/
structure ApiKeyInfo where
  key : String
  index : Nat
  isActive : Bool
  errorCount : Nat
  lastUsed : Option Nat := none
  lastError : Option String := none
deriving Repr, DecidableEq, Inhabited

/-- Embeds the `rotationStrategy` field of `ApiKeyManagerConfig`:
`'round-robin' | 'least-errors' | 'random'`. -/
inductive RotationStrategy where
  | roundRobin
  | leastErrors
  | random
deriving Repr, DecidableEq

/-- Embeds `ApiKeyManagerConfig` (cooldownPeriod is carried but, as in the
source, consulted by no operation). -/
structure ApiKeyManagerConfig where
  rotationStrategy : RotationStrategy
  maxErrorsPerKey : Nat
  cooldownPeriod : Nat
deriving Repr, DecidableEq

/-- The constructor's defaults: round-robin, maxErrorsPerKey = 3,
cooldownPeriod = 60000. -/
def defaultConfig : ApiKeyManagerConfig :=
  { rotationStrategy := .roundRobin, maxErrorsPerKey := 3, cooldownPeriod := 60000 }

/-- The mutable state of an `ApiKeyManager` instance: the credential table,
the current index, and the (immutable after construction) config. -/
structure ApiKeyManager where
  apiKeys : List ApiKeyInfo
  currentIndex : Nat
  config : ApiKeyManagerConfig
deriving Repr, DecidableEq

/-- The three `throw new Error(...)` failure kinds of the manager:
`'No API keys provided'`, `'No valid API keys found after parsing'`,
`'No active API keys available'`. -/
inductive ApiKeyError where
  | emptyInput
  | noValidCredentials
  | noActiveCredentials
deriving Repr, DecidableEq

/-- JS `String.prototype.split(sep)` for a single-character separator, on the
code-unit sequence: `"a;b".split(';') = ["a","b"]`, `";".split(';') = ["",""]`. -/
def splitOnChar (sep : Char) : List Char → List (List Char)
  | [] => [[]]
  | c :: cs =>
    if c = sep then [] :: splitOnChar sep cs
    else
      match splitOnChar sep cs with
      | [] => [[c]]
      | s :: ss => (c :: s) :: ss

/-- JS `String.prototype.trim()`: strip leading and trailing whitespace. -/
def trimChars (cs : List Char) : List Char :=
  ((cs.dropWhile Char.isWhitespace).reverse.dropWhile Char.isWhitespace).reverse

/-- The parsing pipeline of `parseApiKeys`:
`apiKeysString.split(';').map(key => key.trim()).filter(key => key.length > 0)`. -/
def parsedKeys (apiKeysString : String) : List String :=
  (((splitOnChar ';' apiKeysString.data).map trimChars).filter
    (fun k => k.length > 0)).map String.mk

/-- Source `ApiKeyManager.parseApiKeys`: fails on empty/whitespace-only input
(`!apiKeysString || apiKeysString.trim() === ''`), fails when parsing leaves
zero keys, otherwise builds the table with `index` = position, `isActive`
true, `errorCount` 0. -/
def parseApiKeys (apiKeysString : String) : Except ApiKeyError (List ApiKeyInfo) :=
  if trimChars apiKeysString.data = [] then .error .emptyInput
  else
    let keys := parsedKeys apiKeysString
    if keys.length = 0 then .error .noValidCredentials
    else .ok (keys.enum.map (fun p =>
      { key := p.2, index := p.1, isActive := true, errorCount := 0 }))

/-- The `ApiKeyManager` constructor: merge config over defaults (the merge is
supplied here as a fully resolved config) and parse; a throwing constructor
yields no object, so failure leaves no observable state. -/
def mkApiKeyManager (apiKeysString : String) (config : ApiKeyManagerConfig) :
    Except ApiKeyError ApiKeyManager :=
  match parseApiKeys apiKeysString with
  | .error e => .error e
  | .ok ks => .ok { apiKeys := ks, currentIndex := 0, config := config }

/-- Source `getActiveKeys`: `this.apiKeys.filter(key => key.isActive)`. -/
def getActiveKeys (m : ApiKeyManager) : List ApiKeyInfo :=
  m.apiKeys.filter (fun k => k.isActive)

/-- In-place mutation of the first array element satisfying `p` (the target
of a JS `find`/`findIndex` followed by a field assignment). -/
def updateFirst {α : Type} (p : α → Bool) (f : α → α) : List α → List α
  | [] => []
  | x :: xs => if p x then f x :: xs else x :: updateFirst p f xs

/-- Source `getCurrentApiKey`: throws when no key is active; otherwise selects
`activeKeys.find(k => k.index === this.currentIndex) || activeKeys[0]`,
stamps that credential's `lastUsed` (an in-place mutation of the aliased
table entry: the first active entry with the selected index), and returns
its `key`. -/
def getCurrentApiKey (m : ApiKeyManager) (now : Nat) :
    Except ApiKeyError (String × ApiKeyManager) :=
  match getActiveKeys m with
  | [] => .error .noActiveCredentials
  | a :: rest =>
    let currentKey := ((a :: rest).find? (fun k => k.index == m.currentIndex)).getD a
    .ok (currentKey.key,
      { m with apiKeys :=
          (updateFirst (fun k => k.isActive && k.index == currentKey.index)
            (fun k => { k with lastUsed := some now }) m.apiKeys) })

/-- Source `getCurrentApiKeyInfo`: same selection as `getCurrentApiKey` but without
the `lastUsed` side effect. -/
def getCurrentApiKeyInfo (m : ApiKeyManager) : Except ApiKeyError ApiKeyInfo :=
  match getActiveKeys m with
  | [] => .error .noActiveCredentials
  | a :: rest => .ok (((a :: rest).find? (fun k => k.index == m.currentIndex)).getD a)

/-- Source `rotateRoundRobin`: `findIndex` (yielding `-1` when the current index is
not in the active subset), advance by one modulo the number of active keys,
and store that entry's `index`.  The `none` fallback branch is unreachable
for the nonempty `activeKeys` the caller passes. -/
def rotateRoundRobin (m : ApiKeyManager) (activeKeys : List ApiKeyInfo) : ApiKeyManager :=
  let currentActiveIndex : Int :=
    match activeKeys.findIdx? (fun k => k.index == m.currentIndex) with
    | some i => (i : Int)
    | none => -1
  let nextActiveIndex : Int := (currentActiveIndex + 1) % (activeKeys.length : Int)
  match activeKeys[nextActiveIndex.toNat]? with
  | some k => { m with currentIndex := k.index }
  | none => m

/-- The comparator `(a, b) => a.errorCount - b.errorCount` of
`rotateLeastErrors`: `a` sorts no later than `b` iff the difference is
non-positive, i.e. `a.errorCount ≤ b.errorCount`. -/
def leByErrorCount (a b : ApiKeyInfo) : Bool :=
  a.errorCount ≤ b.errorCount

/-- Source `rotateLeastErrors`:
`[...activeKeys].sort((a, b) => a.errorCount - b.errorCount)` — JS `sort`
is stable, modelled by `mergeSort` — then store the first entry's `index`.
The `[]` branch is unreachable for the nonempty `activeKeys` the caller
passes. -/
def rotateLeastErrors (m : ApiKeyManager) (activeKeys : List ApiKeyInfo) : ApiKeyManager :=
  let sortedKeys := activeKeys.mergeSort leByErrorCount
  match sortedKeys with
  | [] => m
  | k :: _ => { m with currentIndex := k.index }

/-- Source `rotateRandom`: `Math.floor(Math.random() * activeKeys.length)` is
modelled by an external draw `r` reduced into `[0, activeKeys.length)`. -/
def rotateRandom (m : ApiKeyManager) (activeKeys : List ApiKeyInfo) (r : Nat) : ApiKeyManager :=
  let randomIndex := r % activeKeys.length
  match activeKeys[randomIndex]? with
  | some k => { m with currentIndex := k.index }
  | none => m

/-- Source `rotateApiKey`: throws when no key is active, otherwise dispatches on the
configured strategy and finishes with `getCurrentApiKey` (which also stamps
`lastUsed`). -/
def rotateApiKey (m : ApiKeyManager) (now : Nat) (r : Nat) :
    Except ApiKeyError (String × ApiKeyManager) :=
  match getActiveKeys m with
  | [] => .error .noActiveCredentials
  | a :: rest =>
    let m2 :=
      match m.config.rotationStrategy with
      | .roundRobin => rotateRoundRobin m (a :: rest)
      | .leastErrors => rotateLeastErrors m (a :: rest)
      | .random => rotateRandom m (a :: rest) r
    getCurrentApiKey m2 now

/-- Source `reportError`: find the credential whose `index` equals `currentIndex`
(a no-op when absent), increment its `errorCount`, overwrite `lastError`,
and deactivate it once `errorCount >= maxErrorsPerKey`. -/
def reportError (m : ApiKeyManager) (error : String) : ApiKeyManager :=
  { m with apiKeys :=
      (updateFirst (fun k => k.index == m.currentIndex)
        (fun k =>
          let k1 := { k with errorCount := k.errorCount + 1, lastError := some error }
          if m.config.maxErrorsPerKey ≤ k1.errorCount then { k1 with isActive := false } else k1)
        m.apiKeys) }

/-- Source `getAllApiKeysStatus`: a defensive copy (`{ ...key }`) of every entry;
under value semantics the spread-copy is the identity on each record. -/
def getAllApiKeysStatus (m : ApiKeyManager) : List ApiKeyInfo :=
  m.apiKeys.map (fun k =>
    { key := k.key, index := k.index, isActive := k.isActive,
      errorCount := k.errorCount, lastUsed := k.lastUsed, lastError := k.lastError })

/-- Source `getActiveKeyCount`. -/
def getActiveKeyCount (m : ApiKeyManager) : Nat :=
  (getActiveKeys m).length

/-- Source `getTotalKeyCount`. -/
def getTotalKeyCount (m : ApiKeyManager) : Nat :=
  m.apiKeys.length

/-- Source `resetErrorCounts`: for every key set `errorCount` to 0, `isActive` to
true, clear `lastError`. -/
def resetErrorCounts (m : ApiKeyManager) : ApiKeyManager :=
  { m with apiKeys := m.apiKeys.map (fun k =>
      { k with errorCount := 0, isActive := true, lastError := none }) }

/-- The character-level body of `maskApiKey`:
`'*'.repeat(len)` when `len <= 12`, otherwise
`substring(0, 8) + '*'.repeat(len - 12) + substring(len - 4)`. -/
def maskChars (cs : List Char) : List Char :=
  if cs.length ≤ 12 then List.replicate cs.length '*'
  else cs.take 8 ++ List.replicate (cs.length - 12) '*' ++ cs.drop (cs.length - 4)

/-- Source `maskApiKey`, acting on the code-unit sequence of the credential. -/
def maskApiKey (apiKey : String) : String :=
  String.mk (maskChars apiKey.data)

/-- The state after a `getCurrentApiKey` call (a throw leaves the state
untouched — in the source the throw happens before any mutation). -/
def getCurrentState (m : ApiKeyManager) (now : Nat) : ApiKeyManager :=
  match getCurrentApiKey m now with
  | .ok (_, m2) => m2
  | .error _ => m

/-- The state after a `rotateApiKey` call (a throw leaves the state
untouched). -/
def rotateState (m : ApiKeyManager) (now r : Nat) : ApiKeyManager :=
  match rotateApiKey m now r with
  | .ok (_, m2) => m2
  | .error _ => m

/-- One public operation on the manager state.  The pure reads
(`getCurrentApiKeyInfo`, `getAllApiKeysStatus`, the counts, `maskApiKey`)
do not appear: they return values without touching the state. -/
inductive Step : ApiKeyManager → ApiKeyManager → Prop where
  | getCurrent (m : ApiKeyManager) (now : Nat) : Step m (getCurrentState m now)
  | rotate (m : ApiKeyManager) (now r : Nat) : Step m (rotateState m now r)
  | report (m : ApiKeyManager) (msg : String) : Step m (reportError m msg)
  | reset (m : ApiKeyManager) : Step m (resetErrorCounts m)

/-- States reachable from a given manager state by any sequence of public
operations. -/
def Reachable : ApiKeyManager → ApiKeyManager → Prop :=
  Relation.ReflTransGen Step

/-- Source `initializeApiKeyManager`: `globalApiKeyManager = new ApiKeyManager(...)`.
The constructor throws before the assignment, so on failure the previously
stored global (first component) is unchanged. -/
def initializeApiKeyManager (globalApiKeyManager : Option ApiKeyManager)
    (apiKeysString : String) (config : ApiKeyManagerConfig) :
    Option ApiKeyManager × Except ApiKeyError ApiKeyManager :=
  match mkApiKeyManager apiKeysString config with
  | .ok m => (some m, .ok m)
  | .error e => (globalApiKeyManager, .error e)

/-- Source `getApiKeyManager`: return the global instance (or none). -/
def getApiKeyManager (globalApiKeyManager : Option ApiKeyManager) : Option ApiKeyManager :=
  globalApiKeyManager

/-- Source `hasMultipleApiKeys`. -/
def hasMultipleApiKeys (globalApiKeyManager : Option ApiKeyManager) : Bool :=
  match globalApiKeyManager with
  | some m => getTotalKeyCount m > 1
  | none => false

/-- A freshly constructed three-credential rotator under the default
(round-robin) config: the value of `mkApiKeyManager "k1;k2;k3" defaultConfig`. -/
def freshM3 : ApiKeyManager :=
  { apiKeys :=
      [{ key := "k1", index := 0, isActive := true, errorCount := 0 },
       { key := "k2", index := 1, isActive := true, errorCount := 0 },
       { key := "k3", index := 2, isActive := true, errorCount := 0 }],
    currentIndex := 0,
    config := defaultConfig }

/-! ## Basic lemmas about the embedding -/

theorem updateFirst_map {α β : Type} (p : α → Bool) (f : α → α) (g : α → β)
    (h : ∀ x, g (f x) = g x) : ∀ l : List α, (updateFirst p f l).map g = l.map g
  | [] => rfl
  | x :: xs => by
    by_cases hp : p x
    · simp [updateFirst, hp, h x]
    · simp [updateFirst, hp, updateFirst_map p f g h xs]

theorem updateFirst_length {α : Type} (p : α → Bool) (f : α → α) (l : List α) :
    (updateFirst p f l).length = l.length := by
  have := updateFirst_map p f (fun _ => ()) (fun _ => rfl) l
  simpa using congrArg List.length this

theorem updateFirst_append {α : Type} (p : α → Bool) (f : α → α)
    (x : α) (post : List α) :
    ∀ pre : List α, (∀ y ∈ pre, p y = false) → p x = true →
    updateFirst p f (pre ++ x :: post) = pre ++ f x :: post
  | [], _, hx => by simp [updateFirst, hx]
  | y :: pre, hpre, hx => by
    have hy : p y = false := hpre y (by simp)
    simp only [List.cons_append, updateFirst, hy]
    simp only [Bool.false_eq_true, if_false, List.cons.injEq, true_and]
    exact updateFirst_append p f x post pre (fun z hz => hpre z (by simp [hz])) hx

theorem getActiveKeys_congr {m₁ m₂ : ApiKeyManager} (h : m₁.apiKeys = m₂.apiKeys) :
    getActiveKeys m₁ = getActiveKeys m₂ := by
  simp [getActiveKeys, h]

theorem getActiveKeys_sub {m : ApiKeyManager} {k : ApiKeyInfo}
    (h : k ∈ getActiveKeys m) : k ∈ m.apiKeys ∧ k.isActive = true := by
  have := List.mem_filter.mp h
  simpa using this

/-- Shape of a successful construction. -/
theorem mkApiKeyManager_ok_shape {raw : String} {cfg : ApiKeyManagerConfig}
    {m0 : ApiKeyManager} (h : mkApiKeyManager raw cfg = .ok m0) :
    m0.apiKeys = (parsedKeys raw).enum.map (fun p =>
      { key := p.2, index := p.1, isActive := true, errorCount := 0 })
    ∧ m0.currentIndex = 0 ∧ m0.config = cfg ∧ (parsedKeys raw).length ≠ 0 := by
  unfold mkApiKeyManager parseApiKeys at h
  by_cases h1 : trimChars raw.data = []
  · simp [h1] at h
  · by_cases h2 : (parsedKeys raw).length = 0
    · simp [h1, h2] at h
    · simp only [h1, h2, if_false, if_true] at h
      cases h
      exact ⟨rfl, rfl, rfl, h2⟩

/-- Source `getCurrentApiKey` throws exactly when no key is active. -/
theorem getCurrentApiKey_eq_error {m : ApiKeyManager} (now : Nat)
    (h : getActiveKeys m = []) :
    getCurrentApiKey m now = .error .noActiveCredentials := by
  unfold getCurrentApiKey
  rw [h]

/-- Shape of a successful `getCurrentApiKey`: the returned key belongs to the
active subset, `currentIndex` and `config` are unchanged, and the table is
rewritten only at the selected entry's `lastUsed` field. -/
theorem getCurrentApiKey_ok {m : ApiKeyManager} (now : Nat)
    {a : ApiKeyInfo} {rest : List ApiKeyInfo} (hA : getActiveKeys m = a :: rest) :
    ∃ k m2, getCurrentApiKey m now = .ok (k.key, m2)
      ∧ k ∈ getActiveKeys m
      ∧ m2.currentIndex = m.currentIndex
      ∧ m2.config = m.config
      ∧ m2.apiKeys = updateFirst (fun x => x.isActive && x.index == k.index)
          (fun x => { x with lastUsed := some now }) m.apiKeys := by
  have hmem : (((a :: rest).find? (fun k => k.index == m.currentIndex)).getD a) ∈ getActiveKeys m := by
    rw [hA]
    cases hf : (a :: rest).find? (fun k => k.index == m.currentIndex) with
    | none => simp
    | some k =>
      simp only [Option.getD_some]
      exact List.mem_of_find?_eq_some hf
  refine ⟨((a :: rest).find? (fun k => k.index == m.currentIndex)).getD a,
    { m with apiKeys :=
        (updateFirst (fun x => x.isActive &&
            x.index == (((a :: rest).find? (fun k => k.index == m.currentIndex)).getD a).index)
          (fun x => { x with lastUsed := some now }) m.apiKeys) },
    ?_, hmem, rfl, rfl, rfl⟩
  unfold getCurrentApiKey
  rw [hA]

/-- The per-field effect of the `lastUsed` stamp: every field other than
`lastUsed` is preserved across the table. -/
theorem getCurrentApiKey_ok_map {m m2 : ApiKeyManager} {now : Nat} {s : String}
    (h : getCurrentApiKey m now = .ok (s, m2)) {β : Type}
    (g : ApiKeyInfo → β) (hg : ∀ (x : ApiKeyInfo) (t : Nat), g { x with lastUsed := some t } = g x) :
    m2.apiKeys.map g = m.apiKeys.map g ∧ m2.currentIndex = m.currentIndex
      ∧ m2.config = m.config := by
  cases hA : getActiveKeys m with
  | nil => rw [getCurrentApiKey_eq_error now hA] at h; cases h
  | cons a rest =>
    obtain ⟨k, m2', heq, -, hidx, hcfg, hkeys⟩ := getCurrentApiKey_ok now hA
    rw [heq] at h
    cases h
    refine ⟨?_, hidx, hcfg⟩
    rw [hkeys]
    exact updateFirst_map _ _ g (fun x => hg x now) m.apiKeys

/-- Source `getCurrentState` never changes `currentIndex`, `config`, or any field of
the table other than `lastUsed`. -/
theorem getCurrentState_map (m : ApiKeyManager) (now : Nat) {β : Type}
    (g : ApiKeyInfo → β) (hg : ∀ (x : ApiKeyInfo) (t : Nat), g { x with lastUsed := some t } = g x) :
    (getCurrentState m now).apiKeys.map g = m.apiKeys.map g
    ∧ (getCurrentState m now).currentIndex = m.currentIndex
    ∧ (getCurrentState m now).config = m.config := by
  unfold getCurrentState
  cases h : getCurrentApiKey m now with
  | error e => exact ⟨rfl, rfl, rfl⟩
  | ok p =>
    obtain ⟨s, m2⟩ := p
    exact getCurrentApiKey_ok_map h g hg

/-- Every strategy leaves the table and the config untouched and moves
`currentIndex` either nowhere (unreachable fallback branches) or to the
`index` of some member of the passed active subset. -/
theorem rotateRoundRobin_shape (m : ApiKeyManager) (ak : List ApiKeyInfo) :
    (rotateRoundRobin m ak).apiKeys = m.apiKeys
    ∧ (rotateRoundRobin m ak).config = m.config
    ∧ ((rotateRoundRobin m ak).currentIndex = m.currentIndex
        ∨ ∃ k ∈ ak, (rotateRoundRobin m ak).currentIndex = k.index) := by
  unfold rotateRoundRobin
  split
  all_goals dsimp only
  all_goals split
  all_goals first
    | exact ⟨rfl, rfl, Or.inl rfl⟩
    | (rename_i k hg; exact ⟨rfl, rfl, Or.inr ⟨k, List.getElem?_mem hg, rfl⟩⟩)

theorem rotateLeastErrors_shape (m : ApiKeyManager) (ak : List ApiKeyInfo) :
    (rotateLeastErrors m ak).apiKeys = m.apiKeys
    ∧ (rotateLeastErrors m ak).config = m.config
    ∧ ((rotateLeastErrors m ak).currentIndex = m.currentIndex
        ∨ ∃ k ∈ ak, (rotateLeastErrors m ak).currentIndex = k.index) := by
  unfold rotateLeastErrors
  dsimp only
  split
  · exact ⟨rfl, rfl, Or.inl rfl⟩
  · rename_i k t hg
    refine ⟨rfl, rfl, Or.inr ⟨k, ?_, rfl⟩⟩
    exact List.mem_mergeSort.mp (hg ▸ List.mem_cons_self k t)

theorem rotateRandom_shape (m : ApiKeyManager) (ak : List ApiKeyInfo) (r : Nat) :
    (rotateRandom m ak r).apiKeys = m.apiKeys
    ∧ (rotateRandom m ak r).config = m.config
    ∧ ((rotateRandom m ak r).currentIndex = m.currentIndex
        ∨ ∃ k ∈ ak, (rotateRandom m ak r).currentIndex = k.index) := by
  unfold rotateRandom
  dsimp only
  split
  all_goals first
    | exact ⟨rfl, rfl, Or.inl rfl⟩
    | (rename_i k hg; exact ⟨rfl, rfl, Or.inr ⟨k, List.getElem?_mem hg, rfl⟩⟩)

/-- Source `rotateApiKey` throws exactly when no key is active. -/
theorem rotateApiKey_eq_error {m : ApiKeyManager} (now r : Nat)
    (h : getActiveKeys m = []) :
    rotateApiKey m now r = .error .noActiveCredentials := by
  unfold rotateApiKey
  rw [h]

/-- Shape of a successful `rotateApiKey`: the returned key is active,
the new `currentIndex` is the `index` of an active credential (or the old
one, from the unreachable fallback branches), and the table changes only at
one `lastUsed` field. -/
theorem rotateApiKey_ok {m : ApiKeyManager} (now r : Nat)
    {a : ApiKeyInfo} {rest : List ApiKeyInfo} (hA : getActiveKeys m = a :: rest) :
    ∃ k m2, rotateApiKey m now r = .ok (k.key, m2)
      ∧ k ∈ getActiveKeys m
      ∧ m2.config = m.config
      ∧ (m2.currentIndex = m.currentIndex ∨ ∃ j ∈ getActiveKeys m, m2.currentIndex = j.index)
      ∧ m2.apiKeys = updateFirst (fun x => x.isActive && x.index == k.index)
          (fun x => { x with lastUsed := some now }) m.apiKeys := by
  have hstrat : ∀ m1 : ApiKeyManager,
      m1 = (match m.config.rotationStrategy with
        | .roundRobin => rotateRoundRobin m (a :: rest)
        | .leastErrors => rotateLeastErrors m (a :: rest)
        | .random => rotateRandom m (a :: rest) r) →
      m1.apiKeys = m.apiKeys ∧ m1.config = m.config
        ∧ (m1.currentIndex = m.currentIndex ∨ ∃ j ∈ (a :: rest), m1.currentIndex = j.index) := by
    intro m1 hm1
    cases hc : m.config.rotationStrategy <;> rw [hc] at hm1 <;> subst hm1
    · exact rotateRoundRobin_shape m (a :: rest)
    · exact rotateLeastErrors_shape m (a :: rest)
    · exact rotateRandom_shape m (a :: rest) r
  obtain ⟨hkeys1, hcfg1, hidx1⟩ := hstrat _ rfl
  have hA1 : getActiveKeys (match m.config.rotationStrategy with
      | .roundRobin => rotateRoundRobin m (a :: rest)
      | .leastErrors => rotateLeastErrors m (a :: rest)
      | .random => rotateRandom m (a :: rest) r) = a :: rest := by
    rw [getActiveKeys_congr hkeys1, hA]
  obtain ⟨k, m2, heq, hkmem, hidx2, hcfg2, hkeys2⟩ := getCurrentApiKey_ok now hA1
  refine ⟨k, m2, ?_, ?_, ?_, ?_, ?_⟩
  · unfold rotateApiKey
    rw [hA]
    exact heq
  · rw [getActiveKeys_congr hkeys1, hA] at hkmem
    rw [hA]
    exact hkmem
  · rw [hcfg2, hcfg1]
  · rw [hidx2]
    rw [hA]
    exact hidx1
  · rw [hkeys2, hkeys1]

/-- Source `rotateState`: the table keeps every field except `lastUsed`, the config
is unchanged, and `currentIndex` moves to the `index` of an active credential
(or stays put). -/
theorem rotateState_shape (m : ApiKeyManager) (now r : Nat) {β : Type}
    (g : ApiKeyInfo → β) (hg : ∀ (x : ApiKeyInfo) (t : Nat), g { x with lastUsed := some t } = g x) :
    (rotateState m now r).apiKeys.map g = m.apiKeys.map g
    ∧ (rotateState m now r).config = m.config
    ∧ ((rotateState m now r).currentIndex = m.currentIndex
        ∨ ∃ j ∈ getActiveKeys m, (rotateState m now r).currentIndex = j.index) := by
  unfold rotateState
  cases hA : getActiveKeys m with
  | nil =>
    rw [rotateApiKey_eq_error now r hA]
    exact ⟨rfl, rfl, Or.inl rfl⟩
  | cons a rest =>
    obtain ⟨k, m2, heq, hmem, hcfg, hidx, hkeys⟩ := rotateApiKey_ok now r hA
    rw [heq]
    dsimp only
    refine ⟨?_, hcfg, ?_⟩
    · rw [hkeys]
      exact updateFirst_map _ _ g (fun x => hg x now) m.apiKeys
    · rw [hA] at hidx
      exact hidx

theorem reportError_currentIndex (m : ApiKeyManager) (msg : String) :
    (reportError m msg).currentIndex = m.currentIndex := rfl

theorem reportError_config (m : ApiKeyManager) (msg : String) :
    (reportError m msg).config = m.config := rfl

/-- Source `reportError` never changes any credential's `index`. -/
theorem reportError_map_index (m : ApiKeyManager) (msg : String) :
    (reportError m msg).apiKeys.map (fun k => k.index) = m.apiKeys.map (fun k => k.index) := by
  unfold reportError
  exact updateFirst_map _ _ _
    (fun x => by dsimp only; split <;> rfl) m.apiKeys

theorem resetErrorCounts_currentIndex (m : ApiKeyManager) :
    (resetErrorCounts m).currentIndex = m.currentIndex := rfl

/-- Source `resetErrorCounts` never changes any credential's `index`. -/
theorem resetErrorCounts_map_index (m : ApiKeyManager) :
    (resetErrorCounts m).apiKeys.map (fun k => k.index) = m.apiKeys.map (fun k => k.index) := by
  unfold resetErrorCounts
  rw [List.map_map]
  rfl

/-! ## The claim theorems -/

/-- C3 (counterexample): the claimed output `AIzaSyTe********6789` (eight
asterisks) is NOT what `maskApiKey` returns on `"AIzaSyTest123456789"` —
that input has 19 characters, not 20, so only `19 - 12 = 7` asterisks are
produced. -/
theorem maskApiKey_19char_counterexample :
    maskApiKey "AIzaSyTest123456789" ≠ "AIzaSyTe********6789" := by decide

/-- C3 (amended): `maskApiKey "AIzaSyTest123456789"` returns the first 8
characters, `19 - 12 = 7` asterisks, and the last 4 characters:
exactly `"AIzaSyTe*******6789"` (the unit test in the repository asserts
this same value). -/
theorem maskApiKey_19char_value :
    maskApiKey "AIzaSyTest123456789" = "AIzaSyTe*******6789" := by decide

/-- C6: for every string, `maskApiKey` fully masks inputs of length ≤ 12,
otherwise reveals exactly the first 8 and last 4 characters with
`length - 12` asterisks in between; the output always has the same length
as the input. -/
theorem maskApiKey_spec (value : String) :
    (value.length ≤ 12 → maskApiKey value = String.mk (List.replicate value.length '*'))
    ∧ (12 < value.length → maskApiKey value = String.mk (value.data.take 8
        ++ List.replicate (value.length - 12) '*' ++ value.data.drop (value.length - 4)))
    ∧ (maskApiKey value).length = value.length := by
  obtain ⟨data⟩ := value
  show (data.length ≤ 12 → String.mk (maskChars data) = String.mk (List.replicate data.length '*'))
    ∧ (12 < data.length → String.mk (maskChars data) = String.mk (data.take 8
        ++ List.replicate (data.length - 12) '*' ++ data.drop (data.length - 4)))
    ∧ (maskChars data).length = data.length
  unfold maskChars
  by_cases h : data.length ≤ 12
  · rw [if_pos h]
    exact ⟨fun _ => rfl, fun h12 => absurd h (by omega), by simp⟩
  · rw [if_neg h]
    refine ⟨fun h12 => absurd h12 h, fun _ => rfl, ?_⟩
    simp only [List.length_append, List.length_take, List.length_replicate, List.length_drop]
    omega

/-- C6 witness: the two branches at concrete inputs. -/
theorem maskApiKey_spec_witness :
    maskApiKey "short" = String.mk (List.replicate (String.length "short") '*')
    ∧ maskApiKey "AIzaSyTest123" = String.mk (("AIzaSyTest123").data.take 8
        ++ List.replicate (String.length "AIzaSyTest123" - 12) '*'
        ++ ("AIzaSyTest123").data.drop (String.length "AIzaSyTest123" - 4)) :=
  ⟨(maskApiKey_spec "short").1 (by decide),
   (maskApiKey_spec "AIzaSyTest123").2.1 (by decide)⟩

/-- C7: `getCurrentApiKey` and `rotateApiKey` fail (with the
no-active-credentials error) exactly when the active subset is empty; when it
is nonempty both succeed and the returned key is the key of an active
credential. -/
theorem exhaustion_spec (m : ApiKeyManager) (now r : Nat) :
    (getActiveKeys m = [] →
       getCurrentApiKey m now = .error .noActiveCredentials
       ∧ rotateApiKey m now r = .error .noActiveCredentials)
    ∧ (getActiveKeys m ≠ [] →
       (∃ k m2, getCurrentApiKey m now = .ok (k.key, m2) ∧ k ∈ getActiveKeys m)
       ∧ (∃ k m2, rotateApiKey m now r = .ok (k.key, m2) ∧ k ∈ getActiveKeys m)) := by
  constructor
  · intro hA
    exact ⟨getCurrentApiKey_eq_error now hA, rotateApiKey_eq_error now r hA⟩
  · intro hne
    cases hA : getActiveKeys m with
    | nil => exact absurd hA hne
    | cons a rest =>
      obtain ⟨k, m2, heq, hmem, -, -, -⟩ := getCurrentApiKey_ok now hA
      obtain ⟨k', m2', heq', hmem', -, -, -⟩ := rotateApiKey_ok now r hA
      rw [hA] at hmem hmem'
      exact ⟨⟨k, m2, heq, hmem⟩, ⟨k', m2', heq', hmem'⟩⟩

/-- C7 witness: on the fresh three-credential rotator both operations
succeed with an active key. -/
theorem exhaustion_spec_witness :
    (∃ k m2, getCurrentApiKey freshM3 0 = .ok (k.key, m2) ∧ k ∈ getActiveKeys freshM3)
    ∧ (∃ k m2, rotateApiKey freshM3 0 0 = .ok (k.key, m2) ∧ k ∈ getActiveKeys freshM3) :=
  (exhaustion_spec freshM3 0 0).2 (by decide)

/-- C9: `currentIndex` is changed only by construction and rotation:
`getCurrentApiKey` (even when it falls back to the first active credential),
`reportError`, and `resetErrorCounts` all leave it untouched, so a
`reportError` right after a fallback `getCurrentApiKey` still targets the
(possibly inactive) credential at the old `currentIndex`.  The remaining
reads (`getCurrentApiKeyInfo`, `getAllApiKeysStatus`, the counts,
`maskApiKey`) are pure functions in this model and touch no state at all. -/
theorem currentIndex_frame (m : ApiKeyManager) (now : Nat) (msg : String) :
    (getCurrentState m now).currentIndex = m.currentIndex
    ∧ (reportError m msg).currentIndex = m.currentIndex
    ∧ (resetErrorCounts m).currentIndex = m.currentIndex
    ∧ (reportError (getCurrentState m now) msg).currentIndex = m.currentIndex := by
  have h := (getCurrentState_map m now (fun k => k.index) (fun x t => rfl)).2.1
  exact ⟨h, rfl, rfl, by rw [reportError_currentIndex, h]⟩

/-- C10: re-initializing the global singleton is atomic with respect to
failure: when construction fails, the error propagates and the stored
global — queried through `getApiKeyManager` — is exactly what it was
before the call. -/
theorem initializeGlobal_failure_atomic (g : Option ApiKeyManager)
    (raw : String) (cfg : ApiKeyManagerConfig) (e : ApiKeyError)
    (h : mkApiKeyManager raw cfg = .error e) :
    getApiKeyManager (initializeApiKeyManager g raw cfg).1 = getApiKeyManager g
    ∧ (initializeApiKeyManager g raw cfg).2 = .error e := by
  unfold initializeApiKeyManager
  rw [h]
  exact ⟨rfl, rfl⟩

/-- C10 witness: a failed re-initialization over an existing global. -/
theorem initializeGlobal_failure_atomic_witness :
    getApiKeyManager (initializeApiKeyManager (some freshM3) "" defaultConfig).1
      = getApiKeyManager (some freshM3)
    ∧ (initializeApiKeyManager (some freshM3) "" defaultConfig).2 = .error .emptyInput :=
  initializeGlobal_failure_atomic (some freshM3) "" defaultConfig .emptyInput (by rfl)

/-- When the current index is absent from the active subset, `findIndex`
returns `-1` and `(-1 + 1) % length = 0`: round-robin wraps to the first
entry of the active subset. -/
theorem rotateRoundRobin_wrap (m : ApiKeyManager) (a : ApiKeyInfo) (rest : List ApiKeyInfo)
    (hnone : (a :: rest).findIdx? (fun k => k.index == m.currentIndex) = none) :
    (rotateRoundRobin m (a :: rest)).currentIndex = a.index := by
  unfold rotateRoundRobin
  rw [hnone]
  dsimp only
  have h0 : (((-1 : Int) + 1) % (((a :: rest).length : Nat) : Int)).toNat = 0 := by
    norm_num
  rw [h0, List.getElem?_cons_zero]

/-- C1: round-robin rotation is deterministic.  On the freshly constructed
three-credential rotator, six successive rotations set `currentIndex` to
`1, 2, 0, 1, 2, 0`; and in any state whose `currentIndex` does not occur in
the (nonempty) active subset, round-robin rotation selects the first entry
of the active subset. -/
theorem roundRobin_rotation_deterministic :
    (mkApiKeyManager "k1;k2;k3" defaultConfig = .ok freshM3
      ∧ (List.map (fun n => ((fun s => rotateState s 0 0)^[n] freshM3).currentIndex)
          [1, 2, 3, 4, 5, 6]) = [1, 2, 0, 1, 2, 0])
    ∧ (∀ (m : ApiKeyManager) (now r : Nat) (a : ApiKeyInfo) (rest : List ApiKeyInfo),
        m.config.rotationStrategy = .roundRobin →
        getActiveKeys m = a :: rest →
        (∀ k ∈ getActiveKeys m, k.index ≠ m.currentIndex) →
        (rotateState m now r).currentIndex = a.index) := by
  constructor
  · exact ⟨by rfl, by decide⟩
  · intro m now r a rest hstrat hA hnotin
    have hnone : (a :: rest).findIdx? (fun k => k.index == m.currentIndex) = none := by
      rw [List.findIdx?_eq_none_iff]
      intro x hx
      have := hnotin x (hA ▸ hx)
      simpa using this
    have hrr : (rotateRoundRobin m (a :: rest)).currentIndex = a.index :=
      rotateRoundRobin_wrap m a rest hnone
    have hkeys1 : (rotateRoundRobin m (a :: rest)).apiKeys = m.apiKeys :=
      (rotateRoundRobin_shape m (a :: rest)).1
    have hA1 : getActiveKeys (rotateRoundRobin m (a :: rest)) = a :: rest := by
      rw [getActiveKeys_congr hkeys1, hA]
    obtain ⟨k, m2, heq2, -, hidx2, -, -⟩ := getCurrentApiKey_ok now hA1
    have hrot : rotateApiKey m now r = .ok (k.key, m2) := by
      unfold rotateApiKey
      rw [hA, hstrat]
      exact heq2
    unfold rotateState
    rw [hrot]
    dsimp only
    rw [hidx2, hrr]

/-- C1 witness: a state whose current index (0) was deactivated; round-robin
rotation selects the first active entry, at index 1. -/
theorem roundRobin_rotation_deterministic_witness :
    (rotateState
      { apiKeys :=
          [{ key := "a", index := 0, isActive := false, errorCount := 3 },
           { key := "b", index := 1, isActive := true, errorCount := 0 },
           { key := "c", index := 2, isActive := true, errorCount := 0 }],
        currentIndex := 0, config := defaultConfig } 0 0).currentIndex = 1 :=
  roundRobin_rotation_deterministic.2
    { apiKeys :=
        [{ key := "a", index := 0, isActive := false, errorCount := 3 },
         { key := "b", index := 1, isActive := true, errorCount := 0 },
         { key := "c", index := 2, isActive := true, errorCount := 0 }],
      currentIndex := 0, config := defaultConfig } 0 0
    { key := "b", index := 1, isActive := true, errorCount := 0 }
    [{ key := "c", index := 2, isActive := true, errorCount := 0 }]
    rfl (by decide) (by decide)

/-- C2: `reportError` increments the `errorCount` of the first credential
whose `index` equals `currentIndex`, overwrites its `lastError`, and leaves
`isActive` as `false` exactly when the new count reaches the threshold or
the flag was already false; no other operation ever turns `isActive` off
(`resetErrorCounts` turns every flag on). -/
theorem reportError_spec :
    (∀ (m : ApiKeyManager) (msg : String) (pre post : List ApiKeyInfo) (x : ApiKeyInfo),
      m.apiKeys = pre ++ x :: post →
      (∀ y ∈ pre, y.index ≠ m.currentIndex) →
      x.index = m.currentIndex →
      (reportError m msg).apiKeys = pre ++
        { x with
            errorCount := x.errorCount + 1,
            lastError := some msg,
            isActive := if m.config.maxErrorsPerKey ≤ x.errorCount + 1 then false else x.isActive } :: post
      ∧ (x.isActive = false →
          (if m.config.maxErrorsPerKey ≤ x.errorCount + 1 then false else x.isActive) = false))
    ∧ (∀ (m : ApiKeyManager) (now r : Nat),
        (getCurrentState m now).apiKeys.map (fun k => k.isActive)
          = m.apiKeys.map (fun k => k.isActive)
        ∧ (rotateState m now r).apiKeys.map (fun k => k.isActive)
          = m.apiKeys.map (fun k => k.isActive)
        ∧ ∀ k ∈ (resetErrorCounts m).apiKeys, k.isActive = true) := by
  constructor
  · intro m msg pre post x hsplit hpre hx
    constructor
    · unfold reportError
      rw [hsplit]
      dsimp only
      rw [updateFirst_append _ _ x post pre
        (fun y hy => by simpa using hpre y hy) (by simpa using hx)]
      by_cases hc : m.config.maxErrorsPerKey ≤ x.errorCount + 1 <;> simp [hc]
    · intro hxa
      by_cases hc : m.config.maxErrorsPerKey ≤ x.errorCount + 1 <;> simp [hc, hxa]
  · intro m now r
    refine ⟨(getCurrentState_map m now (fun k => k.isActive) (fun x t => rfl)).1,
      (rotateState_shape m now r (fun k => k.isActive) (fun x t => rfl)).1, ?_⟩
    intro k hk
    unfold resetErrorCounts at hk
    obtain ⟨y, -, rfl⟩ := List.mem_map.mp hk
    rfl

/-- C2 witness: one report against the fresh three-credential rotator
(threshold 3): the current credential's count becomes 1, its `lastError` is
set, and it stays active. -/
theorem reportError_spec_witness :
    (reportError freshM3 "e").apiKeys =
      [{ key := "k1", index := 0, isActive := true, errorCount := 1, lastUsed := none, lastError := some "e" },
       { key := "k2", index := 1, isActive := true, errorCount := 0 },
       { key := "k3", index := 2, isActive := true, errorCount := 0 }] :=
  (reportError_spec.1 freshM3 "e" []
    [{ key := "k2", index := 1, isActive := true, errorCount := 0 },
     { key := "k3", index := 2, isActive := true, errorCount := 0 }]
    { key := "k1", index := 0, isActive := true, errorCount := 0 }
    rfl (by simp) rfl).1

/-- C4: construction fails with the empty-input error on empty or
all-whitespace input, fails with the no-valid-credentials error when
splitting on `;`, trimming and dropping empty pieces leaves nothing, and
otherwise succeeds with one credential per non-empty trimmed segment, each
active with zero errors, and `currentIndex = 0`.  Failure is modelled by
`Except.error`: no partially constructed manager exists. -/
theorem construction_spec (raw : String) (cfg : ApiKeyManagerConfig) :
    (trimChars raw.data = [] → mkApiKeyManager raw cfg = .error .emptyInput)
    ∧ (trimChars raw.data ≠ [] → parsedKeys raw = [] →
        mkApiKeyManager raw cfg = .error .noValidCredentials)
    ∧ (trimChars raw.data ≠ [] → parsedKeys raw ≠ [] →
        ∃ m0, mkApiKeyManager raw cfg = .ok m0
          ∧ m0.apiKeys.length = (parsedKeys raw).length
          ∧ m0.currentIndex = 0
          ∧ ∀ k ∈ m0.apiKeys, k.errorCount = 0 ∧ k.isActive = true) := by
  refine ⟨fun h1 => ?_, fun h1 h2 => ?_, fun h1 h2 => ?_⟩
  · unfold mkApiKeyManager parseApiKeys
    rw [if_pos h1]
  · unfold mkApiKeyManager parseApiKeys
    rw [if_neg h1]
    dsimp only
    rw [if_pos (by simpa using h2)]
  · unfold mkApiKeyManager parseApiKeys
    rw [if_neg h1]
    dsimp only
    rw [if_neg (by simpa using h2)]
    refine ⟨_, rfl, ?_, rfl, ?_⟩
    · simp
    · intro k hk
      obtain ⟨p, -, rfl⟩ := List.mem_map.mp hk
      exact ⟨rfl, rfl⟩

/-- C4 witness: the three construction outcomes at concrete inputs. -/
theorem construction_spec_witness :
    mkApiKeyManager " " defaultConfig = .error .emptyInput
    ∧ mkApiKeyManager ";;" defaultConfig = .error .noValidCredentials
    ∧ ∃ m0, mkApiKeyManager "a;b;c" defaultConfig = .ok m0
        ∧ m0.apiKeys.length = (parsedKeys "a;b;c").length
        ∧ m0.currentIndex = 0
        ∧ ∀ k ∈ m0.apiKeys, k.errorCount = 0 ∧ k.isActive = true :=
  ⟨(construction_spec " " defaultConfig).1 (by decide),
   (construction_spec ";;" defaultConfig).2.1 (by decide) (by decide),
   (construction_spec "a;b;c" defaultConfig).2.2 (by decide) (by decide)⟩

/-! ## Least-errors strategy: head of the stable sort -/

theorem leByErrorCount_trans : ∀ (x y z : ApiKeyInfo),
    leByErrorCount x y → leByErrorCount y z → leByErrorCount x z := by
  intro x y z h1 h2
  simp only [leByErrorCount, decide_eq_true_eq] at *
  omega

theorem leByErrorCount_total : ∀ (x y : ApiKeyInfo),
    leByErrorCount x y || leByErrorCount y x := by
  intro x y
  simp only [leByErrorCount, Bool.or_eq_true, decide_eq_true_eq]
  omega

/-- In a list with strictly increasing `index` fields, two members with
ordered indices occur in list order. -/
theorem pair_sublist_of_pairwise_lt :
    ∀ {l : List ApiKeyInfo}, l.Pairwise (fun a b => a.index < b.index) →
    ∀ {a b : ApiKeyInfo}, a ∈ l → b ∈ l → a.index < b.index → List.Sublist [a, b] l
  | [], _, a, _, ha, _, _ => absurd ha (List.not_mem_nil a)
  | x :: xs, hp, a, b, ha, hb, hab => by
    obtain ⟨hx, hxs⟩ := List.pairwise_cons.mp hp
    rcases List.mem_cons.mp ha with rfl | ha'
    · rcases List.mem_cons.mp hb with rfl | hb'
      · omega
      · exact List.Sublist.cons₂ a (List.singleton_sublist.mpr hb')
    · rcases List.mem_cons.mp hb with rfl | hb'
      · have := hx a ha'
        omega
      · exact List.Sublist.cons x (pair_sublist_of_pairwise_lt hxs ha' hb' hab)

theorem nodup_of_pairwise_lt {l : List ApiKeyInfo}
    (hp : l.Pairwise (fun a b => a.index < b.index)) : l.Nodup :=
  hp.imp (fun hlt he => by rw [he] at hlt; omega)

/-- The head of the stable sort by `errorCount` over a table in strictly
increasing index order: it is a member with minimal `errorCount`, and among
equal minima it has the least `index`. -/
theorem mergeSort_head_least {l : List ApiKeyInfo}
    (hp : l.Pairwise (fun a b => a.index < b.index))
    {a : ApiKeyInfo} {t : List ApiKeyInfo}
    (hsort : l.mergeSort leByErrorCount = a :: t) :
    a ∈ l ∧ (∀ b ∈ l, a.errorCount ≤ b.errorCount)
    ∧ (∀ b ∈ l, b.errorCount = a.errorCount → a.index ≤ b.index) := by
  have hmem : a ∈ l := List.mem_mergeSort.mp (hsort ▸ List.mem_cons_self a t)
  have hsorted := List.sorted_mergeSort leByErrorCount_trans leByErrorCount_total l
  rw [hsort] at hsorted
  obtain ⟨hhead, -⟩ := List.pairwise_cons.mp hsorted
  have hmin : ∀ b ∈ l, a.errorCount ≤ b.errorCount := by
    intro b hb
    have hb' : b ∈ a :: t := hsort ▸ List.mem_mergeSort.mpr hb
    rcases List.mem_cons.mp hb' with rfl | hb''
    · omega
    · have := hhead b hb''
      simpa [leByErrorCount] using this
  refine ⟨hmem, hmin, ?_⟩
  intro b hb hcount
  by_contra hgt
  push_neg at hgt
  have hne : b ≠ a := fun he => by rw [he] at hgt; omega
  have hsub : List.Sublist [b, a] l := pair_sublist_of_pairwise_lt hp hb hmem hgt
  have hle : leByErrorCount b a := by
    simp [leByErrorCount, hcount]
  have hsub2 := List.pair_sublist_mergeSort leByErrorCount_trans leByErrorCount_total hle hsub
  rw [hsort] at hsub2
  have hnd : (a :: t).Nodup := by
    have := (List.mergeSort_perm l leByErrorCount).symm.nodup (nodup_of_pairwise_lt hp)
    rw [hsort] at this
    exact this
  cases hsub2 with
  | cons _ h =>
    exact (List.nodup_cons.mp hnd).1 (List.Sublist.mem (by simp) h)
  | cons₂ _ _ =>
    exact hne rfl

/-- Source `rotateState` after a successful least-errors rotation exposes the
`currentIndex` chosen by `rotateLeastErrors`. -/
theorem rotateState_currentIndex_leastErrors {m : ApiKeyManager} (now r : Nat)
    {a : ApiKeyInfo} {rest : List ApiKeyInfo} (hA : getActiveKeys m = a :: rest)
    (hstrat : m.config.rotationStrategy = .leastErrors) :
    (rotateState m now r).currentIndex = (rotateLeastErrors m (a :: rest)).currentIndex := by
  have hkeys1 : (rotateLeastErrors m (a :: rest)).apiKeys = m.apiKeys :=
    (rotateLeastErrors_shape m (a :: rest)).1
  have hA1 : getActiveKeys (rotateLeastErrors m (a :: rest)) = a :: rest := by
    rw [getActiveKeys_congr hkeys1, hA]
  obtain ⟨k, m2, heq2, -, hidx2, -, -⟩ := getCurrentApiKey_ok now hA1
  have hrot : rotateApiKey m now r = .ok (k.key, m2) := by
    unfold rotateApiKey
    rw [hA, hstrat]
    exact heq2
  unfold rotateState
  rw [hrot]
  dsimp only
  exact hidx2

/-- The example state of the spec's least-errors scenario: three active
credentials at indices `0, 1, 2` with error counts `2, 2, 0`. -/
def leastM3 : ApiKeyManager :=
  { apiKeys :=
      [{ key := "k1", index := 0, isActive := true, errorCount := 2 },
       { key := "k2", index := 1, isActive := true, errorCount := 2 },
       { key := "k3", index := 2, isActive := true, errorCount := 0 }],
    currentIndex := 0,
    config := { rotationStrategy := .leastErrors, maxErrorsPerKey := 3, cooldownPeriod := 60000 } }

/-- C5: under the least-errors strategy (on a table in index order, as every
reachable table is), rotation selects an active credential with the smallest
`errorCount`, breaking ties by the lowest index; in particular with error
counts `2, 2, 0` at indices `0, 1, 2` it selects index 2. -/
theorem leastErrors_rotation_spec :
    (∀ (m : ApiKeyManager) (now r : Nat),
      m.config.rotationStrategy = .leastErrors →
      m.apiKeys.Pairwise (fun a b => a.index < b.index) →
      getActiveKeys m ≠ [] →
      ∃ k ∈ getActiveKeys m,
        (rotateState m now r).currentIndex = k.index
        ∧ (∀ j ∈ getActiveKeys m, k.errorCount ≤ j.errorCount)
        ∧ (∀ j ∈ getActiveKeys m, j.errorCount = k.errorCount → k.index ≤ j.index))
    ∧ (rotateState leastM3 0 0).currentIndex = 2 := by
  have hgen : ∀ (m : ApiKeyManager) (now r : Nat),
      m.config.rotationStrategy = .leastErrors →
      m.apiKeys.Pairwise (fun a b => a.index < b.index) →
      getActiveKeys m ≠ [] →
      ∃ k ∈ getActiveKeys m,
        (rotateState m now r).currentIndex = k.index
        ∧ (∀ j ∈ getActiveKeys m, k.errorCount ≤ j.errorCount)
        ∧ (∀ j ∈ getActiveKeys m, j.errorCount = k.errorCount → k.index ≤ j.index) := by
    intro m now r hstrat hp hne
    cases hA : getActiveKeys m with
    | nil => exact absurd hA hne
    | cons a rest =>
      have hpA : (a :: rest).Pairwise (fun a b => a.index < b.index) := by
        rw [← hA]
        exact hp.sublist (List.filter_sublist m.apiKeys)
      cases hs : (a :: rest).mergeSort leByErrorCount with
      | nil =>
        have := congrArg List.length hs
        simp at this
      | cons k t =>
        obtain ⟨hkmem, hmin, htie⟩ := mergeSort_head_least hpA hs
        have hrl : (rotateLeastErrors m (a :: rest)).currentIndex = k.index := by
          unfold rotateLeastErrors
          dsimp only
          rw [hs]
        refine ⟨k, ?_, ?_, ?_, ?_⟩
        · exact hkmem
        · rw [rotateState_currentIndex_leastErrors now r hA hstrat, hrl]
        · intro j hj; exact hmin j hj
        · intro j hj; exact htie j hj
  refine ⟨hgen, ?_⟩
  obtain ⟨k, hk, heq, hmin, -⟩ := hgen leastM3 0 0 rfl (by decide) (by decide)
  have h0 : k.errorCount ≤ 0 :=
    hmin { key := "k3", index := 2, isActive := true, errorCount := 0 } (by decide)
  have hl : getActiveKeys leastM3 =
      [{ key := "k1", index := 0, isActive := true, errorCount := 2 },
       { key := "k2", index := 1, isActive := true, errorCount := 2 },
       { key := "k3", index := 2, isActive := true, errorCount := 0 }] := by decide
  rw [hl] at hk
  rw [heq]
  rcases List.mem_cons.mp hk with rfl | hk1
  · exact absurd h0 (by decide)
  · rcases List.mem_cons.mp hk1 with rfl | hk2
    · exact absurd h0 (by decide)
    · rcases List.mem_cons.mp hk2 with rfl | hk3
      · rfl
      · exact absurd hk3 (List.not_mem_nil k)

/-- C5 witness: the general statement instantiated at the `2, 2, 0`
scenario. -/
theorem leastErrors_rotation_spec_witness :
    ∃ k ∈ getActiveKeys leastM3,
      (rotateState leastM3 0 0).currentIndex = k.index
      ∧ (∀ j ∈ getActiveKeys leastM3, k.errorCount ≤ j.errorCount)
      ∧ (∀ j ∈ getActiveKeys leastM3, j.errorCount = k.errorCount → k.index ≤ j.index) :=
  leastErrors_rotation_spec.1 leastM3 0 0 rfl (by decide) (by decide)

/-! ## The index invariant over reachable states -/

/-- Construction establishes the invariant: the table's indices are exactly
`0 .. N-1` in order and `currentIndex` is one of them. -/
theorem mk_index_inv {raw : String} {cfg : ApiKeyManagerConfig} {m0 : ApiKeyManager}
    (h : mkApiKeyManager raw cfg = .ok m0) :
    m0.apiKeys.map (fun k => k.index) = List.range m0.apiKeys.length
    ∧ m0.currentIndex ∈ m0.apiKeys.map (fun k => k.index) := by
  obtain ⟨hkeys, hidx, -, hne⟩ := mkApiKeyManager_ok_shape h
  have hmap : m0.apiKeys.map (fun k => k.index) = List.range (parsedKeys raw).length := by
    rw [hkeys, List.map_map]
    have hcomp : ((fun k : ApiKeyInfo => k.index) ∘ (fun p : Nat × String =>
        ({ key := p.2, index := p.1, isActive := true, errorCount := 0 } : ApiKeyInfo)))
        = Prod.fst := rfl
    rw [hcomp, List.enum_map_fst]
  have hlen : m0.apiKeys.length = (parsedKeys raw).length := by
    rw [hkeys]
    simp
  constructor
  · rw [hmap, hlen]
  · rw [hmap, hidx, List.mem_range]
    omega

/-- Every public operation preserves the index invariant. -/
theorem step_preserves_index_inv {m m' : ApiKeyManager} (h : Step m m')
    (h1 : m.apiKeys.map (fun k => k.index) = List.range m.apiKeys.length)
    (h2 : m.currentIndex ∈ m.apiKeys.map (fun k => k.index)) :
    m'.apiKeys.map (fun k => k.index) = List.range m'.apiKeys.length
    ∧ m'.currentIndex ∈ m'.apiKeys.map (fun k => k.index) := by
  have hlen_of_map : ∀ {l1 l2 : List ApiKeyInfo},
      l1.map (fun k => k.index) = l2.map (fun k => k.index) → l1.length = l2.length := by
    intro l1 l2 hm
    have := congrArg List.length hm
    simpa using this
  cases h with
  | getCurrent now =>
    obtain ⟨hmap, hidx, -⟩ := getCurrentState_map m now (fun k => k.index) (fun x t => rfl)
    rw [hmap, hidx, hlen_of_map hmap]
    exact ⟨h1, h2⟩
  | rotate now r =>
    obtain ⟨hmap, -, hidx⟩ := rotateState_shape m now r (fun k => k.index) (fun x t => rfl)
    rw [hmap, hlen_of_map hmap]
    refine ⟨h1, ?_⟩
    rcases hidx with hsame | ⟨j, hj, hjeq⟩
    · rw [hsame]
      exact h2
    · rw [hjeq]
      exact List.mem_map.mpr ⟨j, (getActiveKeys_sub hj).1, rfl⟩
  | report msg =>
    have hmap := reportError_map_index m msg
    rw [hmap, hlen_of_map hmap, reportError_currentIndex]
    exact ⟨h1, h2⟩
  | reset =>
    have hmap := resetErrorCounts_map_index m
    rw [hmap, hlen_of_map hmap, resetErrorCounts_currentIndex]
    exact ⟨h1, h2⟩

/-- C8: in every state reachable from a successful construction by any
sequence of `getCurrentApiKey`, `rotateApiKey` (under any strategy),
`reportError`, and `resetErrorCounts` (the remaining reads are pure), the
table's `index` column is exactly `0 .. N-1` in construction order — so the
multiset of indices is `{0, ..., N-1}`, never reassigned, reused or gapped —
and `currentIndex` is one of these indices. -/
theorem index_invariant_reachable (raw : String) (cfg : ApiKeyManagerConfig)
    (m0 m : ApiKeyManager) (h0 : mkApiKeyManager raw cfg = .ok m0)
    (h : Reachable m0 m) :
    m.apiKeys.map (fun k => k.index) = List.range m.apiKeys.length
    ∧ m.currentIndex ∈ m.apiKeys.map (fun k => k.index) := by
  unfold Reachable at h
  induction h with
  | refl => exact mk_index_inv h0
  | tail hsteps hstep ih => exact step_preserves_index_inv hstep ih.1 ih.2

/-- C8 witness: the invariant holds in the freshly constructed state. -/
theorem index_invariant_reachable_witness :
    freshM3.apiKeys.map (fun k => k.index) = List.range freshM3.apiKeys.length
    ∧ freshM3.currentIndex ∈ freshM3.apiKeys.map (fun k => k.index) :=
  index_invariant_reachable "k1;k2;k3" defaultConfig freshM3 freshM3 (by rfl)
    Relation.ReflTransGen.refl

end GeminiCli
